import Mathlib

/-!
Verification of a generic Monte Carlo Tree Search engine.

The development shallowly embeds the engine source:

* `MCTSConfig` embeds the configuration dataclass (fields
  `exploration_constant`, `num_simulations`, `uct_C`).
* `Game` embeds the state capability contract consumed by the engine
  (`get_all_possible_actions`, `is_terminated`, `get_next_state`,
  `evaluate`); a domain is a coalgebra over an opaque state type `σ` with
  equality-comparable actions `α`.  `DuckState` additionally records, per
  operation, whether the operation is present at all, embedding the
  duck-typed `hasattr` checks performed at the top of `search`.
* `Node` embeds the tree node: state snapshot, the action that produced
  it, visit statistics, the per-node config reference, and the ordered
  children sequence.  The parent back-reference of the source is
  represented positionally: a node of the tree is addressed by the list of
  child indices from the root (`nodeAt`), and walking the parent chain of
  the node at path `p` is walking the prefixes of `p`.
* The four phases are `selectPath` (selection, returning the path of the
  promising node), `expandNode`/`expandAt` (expansion), `rolloutState` /
  `simulateRandomPlayout` (simulation, with the random source injected as
  a stream `ρ` of naturals, draw `k` picking index `ρ k` modulo the number
  of legal actions), and `backprop` (backpropagation along a path).
  `mctsIteration`, `searchLoop`, `searchTree` and `search` embed the
  orchestration in `MCTS.search`.

Rewards and evaluations are modelled as real numbers, the float infinity
used by the UCT score as the top element of `EReal`.
-/

namespace Mcts

/-- Embeds the configuration dataclass `MCTSConfig`: it has exactly the three
fields `exploration_constant`, `num_simulations` and `uct_C`; there is no
`max_simulation_depth` field in the source dataclass. -/
structure MCTSConfig where
  exploration_constant : ℝ
  num_simulations : ℕ
  uct_C : ℝ

/-- The dataclass defaults of `MCTSConfig`: `exploration_constant = 1.414`,
`num_simulations = 1000`, `uct_C = 1.414`. -/
def MCTSConfig.defaults : MCTSConfig := ⟨1.414, 1000, 1.414⟩

/-- Embeds the simulation depth bound read by `_simulate_random_playout` as
`getattr(self.config, 'max_simulation_depth', 100)`: the `MCTSConfig`
dataclass has no `max_simulation_depth` attribute, so the `getattr` fallback
`100` is what every rollout uses, for every config value. -/
def max_simulation_depth (_cfg : MCTSConfig) : ℕ := 100

/-- Embeds the state capability contract (`BaseState`): legal actions,
termination flag, transition (returning the next state and a transition
reward) and evaluation, over an opaque state type `σ` with actions `α`. -/
structure Game (σ α : Type) where
  get_all_possible_actions : σ → List α
  is_terminated : σ → Bool
  get_next_state : σ → α → σ × ℝ
  evaluate : σ → ℝ

/-- Embeds the duck-typed view of a state class: each of the four required
operations is present (`some`) or absent (`none`), as tested by the
`hasattr` checks at the top of `MCTS.search`. -/
structure DuckState (σ α : Type) where
  get_all_possible_actions : Option (σ → List α)
  is_terminated : Option (σ → Bool)
  get_next_state : Option (σ → α → σ × ℝ)
  evaluate : Option (σ → ℝ)

/-- The operation named by the `AttributeError` that `MCTS.search` raises
when the initial state lacks it. -/
inductive MissingMethod where
  | get_all_possible_actions
  | is_terminated
  | get_next_state
  | evaluate
deriving DecidableEq

/-- Embeds the tree node class `Node`: state snapshot, the action that led
here (`none` for the root), the visit and reward statistics, the per-node
config reference, and the ordered children sequence.  The parent
back-reference is represented positionally (see `nodeAt`). -/
inductive Node (σ α : Type) : Type where
  | mk (state : σ) (action_taken : Option α) (visit_count : ℕ)
      (total_reward : ℝ) (config : MCTSConfig) (children : List (Node σ α))

namespace Node

variable {σ α : Type}

/-- The state snapshot owned by the node. -/
def state : Node σ α → σ
  | .mk s _ _ _ _ _ => s

/-- The action that produced this node from its parent (`none` for a root). -/
def action_taken : Node σ α → Option α
  | .mk _ a _ _ _ _ => a

/-- The visit counter of the node. -/
def visit_count : Node σ α → ℕ
  | .mk _ _ v _ _ _ => v

/-- The reward accumulator of the node. -/
def total_reward : Node σ α → ℝ
  | .mk _ _ _ r _ _ => r

/-- The config the node holds (the root gets the engine config, every child
inherits the config of its parent). -/
def config : Node σ α → MCTSConfig
  | .mk _ _ _ _ c _ => c

/-- The ordered children sequence of the node. -/
def children : Node σ α → List (Node σ α)
  | .mk _ _ _ _ _ cs => cs

/-- Replace the children sequence, keeping every other field. -/
def setChildren : Node σ α → List (Node σ α) → Node σ α
  | .mk s a v r c _, cs => .mk s a v r c cs

/-- One backpropagation visit at this node: `visit_count += 1` and
`total_reward += reward`. -/
def bump (reward : ℝ) : Node σ α → Node σ α
  | .mk s a v r c cs => .mk s a (v + 1) (r + reward) c cs

/-- A fresh node as the `Node` constructor builds it: zero visits, zero
accumulated reward, no children. -/
def fresh (s : σ) (a : Option α) (c : MCTSConfig) : Node σ α :=
  .mk s a 0 0 c []

/-- Embeds the node property `is_terminated`, delegating to the state. -/
def is_terminatedN (g : Game σ α) (n : Node σ α) : Bool :=
  g.is_terminated n.state

/-- Embeds the node property `average_reward`: `total_reward / visit_count`
when `visit_count > 0`, else `0`. -/
noncomputable def average_reward (n : Node σ α) : ℝ :=
  if n.visit_count = 0 then 0 else n.total_reward / n.visit_count

/-- Embeds `Node.uct_value(parent_visit_count)`: float infinity (the top of
`EReal`) when the node is unvisited; otherwise the average reward plus
`uct_C * sqrt(log(parent_visit_count) / visit_count)`, where the defensive
branch `if parent_visit_count == 0: ... parent_visit_count = 1` of the
source clamps a zero parent count to one before the logarithm. -/
noncomputable def uct_value (n : Node σ α) (parent_visit_count : ℕ) : EReal :=
  if n.visit_count = 0 then ⊤
  else
    let pvc : ℕ := if parent_visit_count = 0 then 1 else parent_visit_count
    ((n.average_reward +
        n.config.uct_C * Real.sqrt (Real.log pvc / n.visit_count) : ℝ) : EReal)

end Node

variable {σ α : Type}

/-- The subtree of `t` addressed by the path `p` of child indices: `nodeAt t
[]` is `t` itself, `nodeAt t (i :: p)` descends into child `i`.  `none` for
a path that leaves the tree.  The parent chain of the node at `p` is the
sequence of nodes at the prefixes of `p`. -/
def nodeAt : Node σ α → List ℕ → Option (Node σ α)
  | t, [] => some t
  | t, i :: p =>
    match t.children[i]? with
    | some c => nodeAt c p
    | none => none

/-- The visit and reward statistics of the node addressed by `q`. -/
def statsAt (t : Node σ α) (q : List ℕ) : Option (ℕ × ℝ) :=
  (nodeAt t q).map fun n => (n.visit_count, n.total_reward)

/-- Embeds `MCTS._backpropagate(node, reward)`: the source walks the parent
back-references from the given node up to the root, bumping the statistics
of every node it visits.  Here the walk is rendered top-down: every node on
the path `p` from the root to the given node, endpoints included, is
bumped. -/
def backprop (r : ℝ) : Node σ α → List ℕ → Node σ α
  | .mk s a v tr c cs, [] => .mk s a (v + 1) (tr + r) c cs
  | .mk s a v tr c cs, i :: p =>
    .mk s a (v + 1) (tr + r) c
      (match cs[i]? with
       | some ch => cs.set i (backprop r ch p)
       | none => cs)

/-- Embeds the strict-improvement scan the source runs over the children
lists (`if score > best: best = score; best_child = child`): given the list
of scores, the running index, the running best index (`best_child`, starting
`None`) and the running best score (starting at the negative infinity the
source initialises with), the index of the first score that every other
score fails to exceed. -/
def scanBestIdx {β : Type} [LinearOrder β] : List β → ℕ → Option ℕ → β → Option ℕ
  | [], _, b, _ => b
  | x :: l, i, b, m =>
    if m < x then scanBestIdx l (i + 1) (some i) x
    else scanBestIdx l (i + 1) b m

/-- Embeds the UCT child scan of `MCTS._select_promising_node`: the index of
the child with the strictly highest `uct_value(parent_visit_count)`, the
earliest-created child winning ties (`max_uct` starts at `-float('inf')`,
the bottom of `EReal`). -/
noncomputable def bestChildIdx (pvc : ℕ) (cs : List (Node σ α)) : Option ℕ :=
  scanBestIdx (cs.map fun c => c.uct_value pvc) 0 none ⊥

/-- Embeds `MCTS._select_promising_node`, rendered as the path of the node
the source returns.  The loop stops (returning the current node, here the
empty path) at a terminal node, at a node with no legal actions, and at a
node with fewer children than legal actions; a fully expanded node descends
into the child the UCT scan picks.  The source also breaks when the children
list is empty or the scan returns no child; both are unreachable (see
`selectPath_spec_aux`) and also return the current node. -/
noncomputable def selectPath (g : Game σ α) (t : Node σ α) : List ℕ :=
  if t.is_terminatedN g then []
  else
    let as := g.get_all_possible_actions t.state
    if as.isEmpty then []
    else if t.children.length < as.length then []
    else if t.children.isEmpty then []
    else
      match bestChildIdx t.visit_count t.children with
      | none => []
      | some i =>
        if h : i < t.children.length then
          i :: selectPath g (t.children.get ⟨i, h⟩)
        else []
termination_by sizeOf t
decreasing_by
  have hm := List.sizeOf_lt_of_mem (List.get_mem t.children i h)
  have hc : sizeOf t.children ≤ sizeOf t := by
    cases t
    simp only [Node.children, Node.mk.sizeOf_spec]
    omega
  omega

/-- The first untried action: the source iterates the legal actions in
order and picks the first whose value is not among the `action_taken` of the
existing children. -/
def firstUntried [DecidableEq α] (as : List α) (tried : List (Option α)) : Option α :=
  as.find? fun a => !(tried.contains (some a))

/-- Embeds `MCTS._expand_node`: a terminal node, and a node every legal
action of which is already tried, come back unchanged (paired with `none`);
otherwise the first untried action is applied, the transition reward is
discarded, a fresh child is appended and is the result (paired with its
index, `some` of the old children count). -/
def expandNode [DecidableEq α] (g : Game σ α) (t : Node σ α) : Node σ α × Option ℕ :=
  if t.is_terminatedN g then (t, none)
  else
    let as := g.get_all_possible_actions t.state
    match firstUntried as (t.children.map Node.action_taken) with
    | none => (t, none)
    | some a =>
      (t.setChildren (t.children ++
          [Node.fresh (g.get_next_state t.state a).1 (some a) t.config]),
        some t.children.length)

/-- Expansion applied to the node addressed by `p`: the updated tree paired
with the path of the node expansion returns (the fresh child when one was
created, the node itself otherwise). -/
def expandAt [DecidableEq α] (g : Game σ α) : Node σ α → List ℕ → Node σ α × List ℕ
  | t, [] =>
    let r := expandNode g t
    (r.1, match r.2 with
          | some i => [i]
          | none => [])
  | t, i :: p =>
    match t.children[i]? with
    | some c =>
      let r := expandAt g c p
      (t.setChildren (t.children.set i r.1), i :: r.2)
    | none => (t, i :: p)

/-- Embeds the rollout loop of `MCTS._simulate_random_playout`: starting
from `s` with `fuel` remaining iterations, stop at a terminal state or at a
state with no legal actions, otherwise draw the action at index `ρ k`
modulo the number of legal actions (the injected random source standing for
`random.choice`), apply its transition discarding the transition reward,
and continue with the next draw. -/
def rolloutState (g : Game σ α) (ρ : ℕ → ℕ) : ℕ → ℕ → σ → σ
  | 0, _, s => s
  | fuel + 1, k, s =>
    if g.is_terminated s then s
    else
      match g.get_all_possible_actions s with
      | [] => s
      | a :: rest =>
        let as := a :: rest
        let chosen := as.get ⟨ρ k % as.length, Nat.mod_lt _ (Nat.succ_pos _)⟩
        rolloutState g ρ fuel (k + 1) (g.get_next_state s chosen).1

/-- Embeds `MCTS._simulate_random_playout`: run the rollout loop from the
node's state for at most `max_simulation_depth` steps and return the
`evaluate()` of the state reached. -/
def simulateRandomPlayout (g : Game σ α) (cfg : MCTSConfig) (ρ : ℕ → ℕ)
    (t : Node σ α) : ℝ :=
  g.evaluate (rolloutState g ρ (max_simulation_depth cfg) 0 t.state)

/-- One iteration of the search loop: selection, then expansion unless the
promising node is terminal, then a rollout from the resulting node, then
backpropagation of the rollout reward from that node.  The `none` matches
are unreachable: selection and expansion always address nodes of the
tree. -/
noncomputable def mctsIteration [DecidableEq α] (g : Game σ α) (cfg : MCTSConfig)
    (ρ : ℕ → ℕ) (t : Node σ α) : Node σ α :=
  let p := selectPath g t
  match nodeAt t p with
  | none => t
  | some pn =>
    let r := if pn.is_terminatedN g then (t, p) else expandAt g t p
    let reward :=
      match nodeAt r.1 r.2 with
      | some n => simulateRandomPlayout g cfg ρ n
      | none => 0
    backprop reward r.1 r.2

/-- The `num_simulations` iterations of `MCTS.search`, iteration `i` drawing
from the stream `ρ i`. -/
noncomputable def searchLoop [DecidableEq α] (g : Game σ α) (cfg : MCTSConfig)
    (ρ : ℕ → ℕ → ℕ) (n : ℕ) (t : Node σ α) : Node σ α :=
  (List.range n).foldl (fun acc i => mctsIteration g cfg (ρ i) acc) t

/-- Embeds the best-child pick after the loop of `MCTS.search`: `none` when
the root has no children, otherwise the scan for the child with the highest
`visit_count` (`highest_visits` starts at `-1`, ties go to the
earliest-created child) and its `action_taken`. -/
def bestChildAction (cs : List (Node σ α)) : Option α :=
  if cs.isEmpty then none
  else
    match scanBestIdx (cs.map fun c => (c.visit_count : ℤ)) 0 none (-1) with
    | some i =>
      match cs[i]? with
      | some c => c.action_taken
      | none => none
    | none => none

/-- The tree `MCTS.search` holds when it returns: the fresh root alone when
the initial state is terminal, the root after the simulation loop
otherwise. -/
noncomputable def searchTree [DecidableEq α] (g : Game σ α) (cfg : MCTSConfig)
    (s : σ) (ρ : ℕ → ℕ → ℕ) : Node σ α :=
  let root : Node σ α := Node.fresh s none cfg
  if root.is_terminatedN g then root
  else searchLoop g cfg ρ cfg.num_simulations root

/-- Embeds `MCTS.search` past its `hasattr` gate: build the fresh root,
return `none` at a terminal initial state, otherwise run the simulation
loop and return the `action_taken` of the most visited root child. -/
noncomputable def search [DecidableEq α] (g : Game σ α) (cfg : MCTSConfig)
    (s : σ) (ρ : ℕ → ℕ → ℕ) : Option α :=
  let root : Node σ α := Node.fresh s none cfg
  if root.is_terminatedN g then none
  else bestChildAction (searchLoop g cfg ρ cfg.num_simulations root).children

/-- Embeds `MCTS.search` with its duck-typing gate: the four `hasattr`
checks run first, in source order, and the first absent operation aborts
the call with the `AttributeError` naming it; with all four present the
total search runs. -/
noncomputable def searchChecked [DecidableEq α] (d : DuckState σ α)
    (cfg : MCTSConfig) (s : σ) (ρ : ℕ → ℕ → ℕ) : Except MissingMethod (Option α) :=
  match d.get_all_possible_actions with
  | none => .error .get_all_possible_actions
  | some acts =>
    match d.is_terminated with
    | none => .error .is_terminated
    | some term =>
      match d.get_next_state with
      | none => .error .get_next_state
      | some nxt =>
        match d.evaluate with
        | none => .error .evaluate
        | some ev => .ok (search ⟨acts, term, nxt, ev⟩ cfg s ρ)

/-! ## The strict-improvement scans -/

/-- What the strict-improvement scan computes, relative to its accumulator:
either no score beats the running best `m` and the running best index `b`
comes back, or the scan lands on the first maximal score that beats `m` —
maximal among all scores, and strictly above every score before it. -/
theorem scanBestIdx_spec {β : Type} [LinearOrder β] :
    ∀ (l : List β) (i0 : ℕ) (b : Option ℕ) (m : β),
      (scanBestIdx l i0 b m = b ∧ ∀ (j : ℕ) (v : β), l[j]? = some v → v ≤ m)
      ∨ (∃ (i : ℕ) (v : β), l[i]? = some v ∧ scanBestIdx l i0 b m = some (i0 + i) ∧
          m < v ∧ (∀ (j : ℕ) (w : β), l[j]? = some w → w ≤ v) ∧
          ∀ (j : ℕ) (w : β), j < i → l[j]? = some w → w < v) := by
  intro l
  induction l with
  | nil =>
    intro i0 b m
    left
    refine ⟨rfl, ?_⟩
    intro j v hj
    simp at hj
  | cons x l ih =>
    intro i0 b m
    by_cases hmx : m < x
    · rcases ih (i0 + 1) (some i0) x with ⟨heq, hall⟩ | ⟨i, v, hv, heq, hlt, hall, hfst⟩
      · right
        refine ⟨0, x, by simp, ?_, hmx, ?_, ?_⟩
        · simpa [scanBestIdx, hmx] using heq
        · intro j w hj
          cases j with
          | zero =>
            have hw : x = w := by simpa using hj
            subst hw
            exact le_refl x
          | succ j => exact hall j w (by simpa using hj)
        · intro j w hji hj
          exact absurd hji (Nat.not_lt_zero j)
      · right
        refine ⟨i + 1, v, by simpa using hv, ?_, lt_trans hmx hlt, ?_, ?_⟩
        · have harith : i0 + 1 + i = i0 + (i + 1) := by omega
          simp only [scanBestIdx, if_pos hmx]
          rw [heq, harith]
        · intro j w hj
          cases j with
          | zero =>
            have hw : x = w := by simpa using hj
            subst hw
            exact le_of_lt hlt
          | succ j => exact hall j w (by simpa using hj)
        · intro j w hji hj
          cases j with
          | zero =>
            have hw : x = w := by simpa using hj
            subst hw
            exact hlt
          | succ j => exact hfst j w (by omega) (by simpa using hj)
    · have hxm : x ≤ m := le_of_not_lt hmx
      rcases ih (i0 + 1) b m with ⟨heq, hall⟩ | ⟨i, v, hv, heq, hlt, hall, hfst⟩
      · left
        refine ⟨by simpa [scanBestIdx, hmx] using heq, ?_⟩
        intro j v hj
        cases j with
        | zero =>
          have hw : x = v := by simpa using hj
          subst hw
          exact hxm
        | succ j => exact hall j v (by simpa using hj)
      · right
        refine ⟨i + 1, v, by simpa using hv, ?_, hlt, ?_, ?_⟩
        · have harith : i0 + 1 + i = i0 + (i + 1) := by omega
          simp only [scanBestIdx, if_neg hmx]
          rw [heq, harith]
        · intro j w hj
          cases j with
          | zero =>
            have hw : x = w := by simpa using hj
            subst hw
            exact le_of_lt (lt_of_le_of_lt hxm hlt)
          | succ j => exact hall j w (by simpa using hj)
        · intro j w hji hj
          cases j with
          | zero =>
            have hw : x = w := by simpa using hj
            subst hw
            exact lt_of_le_of_lt hxm hlt
          | succ j => exact hfst j w (by omega) (by simpa using hj)


/-! ## C1: the UCT score -/

/-- The UCT score exactly as the spec sentence words it: plus infinity for
an unvisited node, otherwise `average_reward + C_p * sqrt(ln(max(pvc, 1)) /
visit_count)` with `C_p` the configured `exploration_constant`. -/
noncomputable def uct_score_spec (cfg : MCTSConfig) (visit_count : ℕ)
    (total_reward : ℝ) (parent_visit_count : ℕ) : EReal :=
  if visit_count = 0 then ⊤
  else ((total_reward / visit_count +
      cfg.exploration_constant *
        Real.sqrt (Real.log (max parent_visit_count 1) / visit_count) : ℝ) : EReal)

/-- The natural-number clamp of the source (`if pvc == 0: pvc = 1`) is the
clamp `max pvc 1` of the spec. -/
theorem clamp_eq_max (pvc : ℕ) : (if pvc = 0 then 1 else pvc) = max pvc 1 := by
  rcases pvc with _ | pvc <;> simp

/-- Closed form of `uct_value`, shared by several theorems below: plus
infinity at an unvisited node, otherwise the average reward plus `uct_C *
sqrt(ln(max(parent_visit_count, 1)) / visit_count)`. -/
theorem uct_value_closed (cfg : MCTSConfig) (s : σ) (a : Option α)
    (vc : ℕ) (tr : ℝ) (cs : List (Node σ α)) (pvc : ℕ) :
    (Node.mk s a vc tr cfg cs).uct_value pvc =
      if vc = 0 then (⊤ : EReal)
      else ((tr / vc +
          cfg.uct_C * Real.sqrt (Real.log ((max pvc 1 : ℕ) : ℝ) / vc) : ℝ) : EReal) := by
  by_cases h : vc = 0
  · simp [Node.uct_value, Node.visit_count, h]
  · simp only [Node.uct_value, Node.visit_count, Node.average_reward,
      Node.total_reward, Node.config, h, if_false, clamp_eq_max]

/-- C1 (amended): `uct_value` is plus infinity at an unvisited node
regardless of the parent count, and otherwise equals `average_reward + C_p
* sqrt(ln(max(parent_visit_count, 1)) / visit_count)` — where `C_p` is the
configured `uct_C`, not the configured `exploration_constant`. -/
theorem uct_value_closed_form (cfg : MCTSConfig) (s : σ) (a : Option α)
    (vc : ℕ) (tr : ℝ) (cs : List (Node σ α)) (pvc : ℕ) :
    (Node.mk s a vc tr cfg cs).uct_value pvc =
      if vc = 0 then (⊤ : EReal)
      else ((tr / vc +
          cfg.uct_C * Real.sqrt (Real.log ((max pvc 1 : ℕ) : ℝ) / vc) : ℝ) : EReal) :=
  uct_value_closed cfg s a vc tr cs pvc

/-- C1 as frozen is false on the code: with `exploration_constant = 0` and
`uct_C = 1`, a node with one visit, zero reward and parent count `2` scores
`sqrt(ln 2)`, not the `0` the spec formula yields. -/
theorem uct_value_ne_uct_score_spec :
    Node.uct_value (Node.mk () none 1 0 (MCTSConfig.mk 0 1000 1)
        ([] : List (Node Unit Unit))) 2
      ≠ uct_score_spec (MCTSConfig.mk 0 1000 1) 1 0 2 := by
  rw [uct_value_closed, uct_score_spec]
  norm_num
  exact ne_of_gt (Real.sqrt_pos.mpr (Real.log_pos (by norm_num)))

/-! ## C2: selection -/

/-- A UCT score is never the negative infinity the scan starts from. -/
theorem uct_value_ne_bot (n : Node σ α) (pvc : ℕ) : n.uct_value pvc ≠ ⊥ := by
  unfold Node.uct_value
  split
  · simp
  · exact EReal.coe_ne_bot _

/-- Over a nonempty children list the UCT scan picks a child: the first one
with the maximal `uct_value`, strictly above every earlier child. -/
theorem bestChildIdx_spec (pvc : ℕ) (cs : List (Node σ α)) (hne : cs ≠ []) :
    ∃ (i : ℕ) (c : Node σ α), cs[i]? = some c ∧ bestChildIdx pvc cs = some i ∧
      (∀ (j : ℕ) (d : Node σ α), cs[j]? = some d →
        d.uct_value pvc ≤ c.uct_value pvc) ∧
      ∀ (j : ℕ) (d : Node σ α), j < i → cs[j]? = some d →
        d.uct_value pvc < c.uct_value pvc := by
  rcases scanBestIdx_spec (cs.map fun c => c.uct_value pvc) 0 none ⊥ with
    ⟨_, hall⟩ | ⟨i, v, hv, heq, _, hall, hfst⟩
  · rcases cs with _ | ⟨c, cs⟩
    · exact absurd rfl hne
    · have hb : c.uct_value pvc ≤ ⊥ := hall 0 (c.uct_value pvc) (by simp)
      exact absurd (le_bot_iff.mp hb) (uct_value_ne_bot c pvc)
  · rw [List.getElem?_map] at hv
    rcases Option.map_eq_some'.mp hv with ⟨c, hc, hcv⟩
    refine ⟨i, c, hc, by simpa [bestChildIdx] using heq, ?_, ?_⟩
    · intro j d hj
      have := hall j (d.uct_value pvc)
        (by rw [List.getElem?_map, hj]; rfl)
      exact hcv ▸ this
    · intro j d hji hj
      have := hfst j (d.uct_value pvc) hji
        (by rw [List.getElem?_map, hj]; rfl)
      exact hcv ▸ this

/-- Descending one step in the tree: when child `i` exists, the node at
path `i :: p` is the node at `p` inside that child. -/
theorem nodeAt_cons_eq {t c : Node σ α} {i : ℕ} (hc : t.children[i]? = some c)
    (p : List ℕ) : nodeAt t (i :: p) = nodeAt c p := by
  show (match t.children[i]? with
        | some c2 => nodeAt c2 p
        | none => none) = nodeAt c p
  rw [hc]

/-- The node selection returns exists and satisfies its stopping contract:
it is terminal, has no legal actions, or has fewer children than legal
actions.  Proved by strong induction on the tree size. -/
theorem selectPath_result_aux (g : Game σ α) :
    ∀ (N : ℕ) (t : Node σ α), sizeOf t ≤ N →
      ∃ n, nodeAt t (selectPath g t) = some n ∧
        (n.is_terminatedN g = true ∨ g.get_all_possible_actions n.state = [] ∨
          n.children.length < (g.get_all_possible_actions n.state).length) := by
  intro N
  induction N with
  | zero =>
    intro t h
    cases t
    simp [Node.mk.sizeOf_spec] at h
  | succ N ih =>
    intro t hle
    rw [selectPath]
    by_cases hterm : t.is_terminatedN g
    · exact ⟨t, by simp [hterm, nodeAt], Or.inl hterm⟩
    · by_cases hacts : (g.get_all_possible_actions t.state).isEmpty
      · refine ⟨t, by simp [hterm, hacts, nodeAt], Or.inr (Or.inl ?_)⟩
        exact List.isEmpty_iff.mp hacts
      · by_cases hfew : t.children.length < (g.get_all_possible_actions t.state).length
        · exact ⟨t, by simp [hterm, hacts, hfew, nodeAt], Or.inr (Or.inr hfew)⟩
        · have hcne : t.children ≠ [] := by
            intro hnil
            have h1 : 0 < (g.get_all_possible_actions t.state).length :=
              List.length_pos.mpr (fun h2 => by simp [h2] at hacts)
            rw [hnil] at hfew
            exact hfew (by simpa using h1)
          have hcsne : ¬t.children.isEmpty := by
            simpa [List.isEmpty_iff] using hcne
          rcases bestChildIdx_spec t.visit_count t.children hcne with
            ⟨i, c, hc, hbest, _, _⟩
          have hilt : i < t.children.length := by
            rcases List.getElem?_eq_some.mp hc with ⟨h1, _⟩
            exact h1
          have hgetc : t.children.get ⟨i, hilt⟩ = c := by
            have h3 := List.getElem?_eq_getElem hilt
            rw [h3] at hc
            rw [List.get_eq_getElem]
            exact Option.some.inj hc
          have hchild : sizeOf (t.children.get ⟨i, hilt⟩) ≤ N := by
            have hm := List.sizeOf_lt_of_mem (List.get_mem t.children i hilt)
            have hcsz : sizeOf t.children ≤ sizeOf t := by
              cases t
              simp only [Node.children, Node.mk.sizeOf_spec]
              omega
            omega
          rcases ih (t.children.get ⟨i, hilt⟩) hchild with ⟨n, hn, hprop⟩
          refine ⟨n, ?_, hprop⟩
          simp only [hterm, hacts, hfew, hcsne, hbest, if_false, hilt, dif_pos,
            Bool.false_eq_true, if_neg]
          rw [hgetc] at hn ⊢
          rw [nodeAt_cons_eq hc]
          exact hn

/-- C2: selection returns a node that is terminal, has no legal actions, or
is not fully expanded; and at a fully-expanded non-terminal node (child
count at least the legal-action count) it descends into the child with the
strictly highest `uct_value` computed with the current node visit count as
parent count, the earliest-created child winning ties. -/
theorem select_promising_node_spec (g : Game σ α) (t : Node σ α) :
    (∃ n, nodeAt t (selectPath g t) = some n ∧
      (n.is_terminatedN g = true ∨ g.get_all_possible_actions n.state = [] ∨
        n.children.length < (g.get_all_possible_actions n.state).length))
    ∧ (t.is_terminatedN g = false →
       g.get_all_possible_actions t.state ≠ [] →
       (g.get_all_possible_actions t.state).length ≤ t.children.length →
       ∃ (i : ℕ) (c : Node σ α), t.children[i]? = some c ∧
         bestChildIdx t.visit_count t.children = some i ∧
         selectPath g t = i :: selectPath g c ∧
         (∀ (j : ℕ) (d : Node σ α), t.children[j]? = some d →
            d.uct_value t.visit_count ≤ c.uct_value t.visit_count) ∧
         ∀ (j : ℕ) (d : Node σ α), j < i → t.children[j]? = some d →
            d.uct_value t.visit_count < c.uct_value t.visit_count) := by
  constructor
  · exact selectPath_result_aux g (sizeOf t) t le_rfl
  · intro hterm0 hne hfull
    have hterm : ¬t.is_terminatedN g = true := by simp [hterm0]
    have hacts : ¬(g.get_all_possible_actions t.state).isEmpty = true := by
      simpa [List.isEmpty_iff] using hne
    have hfew : ¬t.children.length < (g.get_all_possible_actions t.state).length :=
      not_lt.mpr hfull
    have hcne : t.children ≠ [] := by
      intro hnil
      have h1 : 0 < (g.get_all_possible_actions t.state).length :=
        List.length_pos.mpr hne
      rw [hnil] at hfew
      exact hfew (by simpa using h1)
    have hcsne : ¬t.children.isEmpty = true := by
      simpa [List.isEmpty_iff] using hcne
    rcases bestChildIdx_spec t.visit_count t.children hcne with
      ⟨i, c, hc, hbest, hall, hfst⟩
    have hilt : i < t.children.length := by
      rcases List.getElem?_eq_some.mp hc with ⟨h1, _⟩
      exact h1
    have hgetc : t.children.get ⟨i, hilt⟩ = c := by
      have hc4 := hc
      rw [List.getElem?_eq_getElem hilt] at hc4
      rw [List.get_eq_getElem]
      exact Option.some.inj hc4
    refine ⟨i, c, hc, hbest, ?_, hall, hfst⟩
    conv_lhs => rw [selectPath]
    simp only [hterm, hacts, hfew, hcsne, hbest, if_false, hilt, dif_pos,
      Bool.false_eq_true, if_neg]
    rw [hgetc]

/-! ## C3: expansion -/

/-- Accessor equation for `setChildren`. -/
theorem children_setChildren (t : Node σ α) (cs : List (Node σ α)) :
    (t.setChildren cs).children = cs := by
  cases t
  rfl

/-- No action is untried exactly when every legal action already appears
among the children `action_taken` values. -/
theorem firstUntried_eq_none [DecidableEq α] (as : List α) (tried : List (Option α)) :
    firstUntried as tried = none ↔ ∀ a ∈ as, some a ∈ tried := by
  unfold firstUntried
  rw [List.find?_eq_none]
  constructor
  · intro h a ha
    have := h a ha
    simpa using this
  · intro h a ha
    simpa using h a ha

/-- What a successful `firstUntried` means: the action is untried, and it is
the first such in the legal-action order (everything before it is tried). -/
theorem firstUntried_eq_some [DecidableEq α] :
    ∀ (as : List α) (tried : List (Option α)) (a : α),
      firstUntried as tried = some a →
      some a ∉ tried ∧ a ∈ as ∧
        ∃ l1 l2, as = l1 ++ a :: l2 ∧ ∀ b ∈ l1, some b ∈ tried := by
  intro as
  induction as with
  | nil => intro tried a h; simp [firstUntried] at h
  | cons x as ih =>
    intro tried a h
    unfold firstUntried at h
    rw [List.find?_cons] at h
    cases hx : (!tried.contains (some x)) with
    | true =>
      rw [hx] at h
      have hax : x = a := by simpa using h
      subst hax
      refine ⟨by simpa using hx, List.mem_cons_self x as, [], as, rfl, ?_⟩
      intro b hb
      simp at hb
    | false =>
      rw [hx] at h
      have h2 : firstUntried as tried = some a := by
        simpa [firstUntried] using h
      rcases ih tried a h2 with ⟨hnt, hmem, l1, l2, heq, hall⟩
      refine ⟨hnt, List.mem_cons_of_mem x hmem, x :: l1, l2, by rw [heq]; rfl, ?_⟩
      intro b hb
      rcases List.mem_cons.mp hb with hb | hb
      · subst hb
        simpa using hx
      · exact hall b hb

/-- C3: expansion is a no-op (same node, children unchanged) at a terminal
node and at a node whose legal actions are all tried; otherwise it appends
exactly one fresh child, built from the first untried action in
legal-action order and the state its transition returns (the transition
reward discarded), and hands it back; the children therefore never hold two
equal `action_taken` values. -/
theorem expand_node_spec [DecidableEq α] (g : Game σ α) (t : Node σ α) :
    (t.is_terminatedN g = true → expandNode g t = (t, none))
    ∧ ((∀ a ∈ g.get_all_possible_actions t.state,
          some a ∈ t.children.map Node.action_taken) →
        expandNode g t = (t, none))
    ∧ (∀ a, t.is_terminatedN g = false →
        firstUntried (g.get_all_possible_actions t.state)
            (t.children.map Node.action_taken) = some a →
        expandNode g t =
          (t.setChildren (t.children ++
              [Node.fresh (g.get_next_state t.state a).1 (some a) t.config]),
            some t.children.length) ∧
          some a ∉ t.children.map Node.action_taken ∧
          ∃ l1 l2, g.get_all_possible_actions t.state = l1 ++ a :: l2 ∧
            ∀ b ∈ l1, some b ∈ t.children.map Node.action_taken)
    ∧ (¬(∀ a ∈ g.get_all_possible_actions t.state,
          some a ∈ t.children.map Node.action_taken) →
        ∃ a, firstUntried (g.get_all_possible_actions t.state)
            (t.children.map Node.action_taken) = some a)
    ∧ ((t.children.map Node.action_taken).Nodup →
        (((expandNode g t).1).children.map Node.action_taken).Nodup) := by
  refine ⟨?_, ?_, ?_, ?_, ?_⟩
  · intro hterm
    simp [expandNode, hterm]
  · intro hall
    have hnone : firstUntried (g.get_all_possible_actions t.state)
        (t.children.map Node.action_taken) = none :=
      (firstUntried_eq_none _ _).mpr hall
    unfold expandNode
    split
    · rfl
    · simp only [hnone]
  · intro a hterm hsome
    rcases firstUntried_eq_some _ _ _ hsome with ⟨hnt, _, l1, l2, heq, hall⟩
    refine ⟨?_, hnt, l1, l2, heq, hall⟩
    unfold expandNode
    rw [if_neg (by simp [hterm])]
    simp only [hsome]
  · intro hnall
    rcases hfu : firstUntried (g.get_all_possible_actions t.state)
        (t.children.map Node.action_taken) with _ | a
    · exact absurd ((firstUntried_eq_none _ _).mp hfu) hnall
    · exact ⟨a, rfl⟩
  · intro hnd
    unfold expandNode
    split
    · exact hnd
    · rcases hfu : firstUntried (g.get_all_possible_actions t.state)
          (t.children.map Node.action_taken) with _ | a
      · simp only [hfu]
        exact hnd
      · rcases firstUntried_eq_some _ _ _ hfu with ⟨hnt, _, _⟩
        simp only [hfu, children_setChildren, List.map_append]
        rw [List.nodup_append]
        refine ⟨hnd, by simp [Node.fresh, Node.action_taken], ?_⟩
        intro x hx
        simp only [Node.fresh, List.map_cons, List.map_nil, List.mem_singleton]
        intro hcon
        rw [hcon] at hx
        exact hnt (by simpa [Node.action_taken] using hx)

/-! ## C4: backpropagation -/

/-- Path composition for `nodeAt`. -/
theorem nodeAt_append :
    ∀ (q rest : List ℕ) (t : Node σ α),
      nodeAt t (q ++ rest) = (nodeAt t q).bind fun n => nodeAt n rest := by
  intro q
  induction q with
  | nil => intro rest t; rfl
  | cons j q2 ih =>
    intro rest t
    show (match t.children[j]? with
          | some c => nodeAt c (q2 ++ rest)
          | none => none) =
        ((match t.children[j]? with
          | some c => nodeAt c q2
          | none => none).bind fun n => nodeAt n rest)
    cases t.children[j]? with
    | none => rfl
    | some c => exact ih rest c

/-- Every prefix of a path into the tree is itself a path into the tree:
the ancestors of a node all exist. -/
theorem nodeAt_ancestor_isSome {t : Node σ α} {p q : List ℕ}
    (hq : q <+: p) (hp : (nodeAt t p).isSome) : (nodeAt t q).isSome := by
  rcases hq with ⟨rest, hrest⟩
  subst hrest
  rw [nodeAt_append] at hp
  cases hnq : nodeAt t q with
  | none => rw [hnq] at hp; simp at hp
  | some n => simp

/-- The heart of C4: backpropagation from the node at a valid path `p` bumps
the statistics of exactly the nodes addressed by the prefixes of `p` (the
node itself and its ancestor chain up to the root, `p.length + 1` many) and
preserves the statistics of every other node and the shape of the tree. -/
theorem backprop_statsAt (r : ℝ) :
    ∀ (p : List ℕ) (t : Node σ α), (nodeAt t p).isSome →
      (∀ (q : List ℕ) (n : Node σ α), nodeAt t q = some n →
        statsAt (backprop r t p) q =
          some (if q <+: p then (n.visit_count + 1, n.total_reward + r)
                else (n.visit_count, n.total_reward)))
      ∧ ∀ q : List ℕ, (nodeAt (backprop r t p) q).isSome = (nodeAt t q).isSome := by
  intro p
  induction p with
  | nil =>
    intro t _
    cases t with
    | mk s a v tr c cs =>
      constructor
      · intro q n hq
        cases q with
        | nil =>
          have hn : n = Node.mk s a v tr c cs := by
            simpa [nodeAt] using hq.symm
          subst hn
          simp [backprop, statsAt, nodeAt, Node.visit_count, Node.total_reward]
        | cons j q2 =>
          have hsame : nodeAt (backprop r (Node.mk s a v tr c cs) []) (j :: q2) =
              nodeAt (Node.mk s a v tr c cs) (j :: q2) := rfl
          have hpre : ¬(j :: q2 <+: ([] : List ℕ)) := by simp
          simp [statsAt, hsame, hq, hpre]
      · intro q
        cases q with
        | nil => rfl
        | cons j q2 => rfl
  | cons i p2 ih =>
    intro t hval
    cases t with
    | mk s a v tr c cs =>
      rcases hch : cs[i]? with _ | ch
      · exfalso
        have : nodeAt (Node.mk s a v tr c cs) (i :: p2) = none := by
          show (match cs[i]? with
                | some c2 => nodeAt c2 p2
                | none => none) = none
          rw [hch]
        rw [this] at hval
        simp at hval
      · have hval2 : (nodeAt ch p2).isSome := by
          have : nodeAt (Node.mk s a v tr c cs) (i :: p2) = nodeAt ch p2 := by
            show (match cs[i]? with
                  | some c2 => nodeAt c2 p2
                  | none => none) = nodeAt ch p2
            rw [hch]
          rw [this] at hval
          exact hval
        have hilt : i < cs.length := (List.getElem?_eq_some.mp hch).1
        rcases ih ch hval2 with ⟨ihstats, ihshape⟩
        have hbp : backprop r (Node.mk s a v tr c cs) (i :: p2) =
            Node.mk s a (v + 1) (tr + r) c (cs.set i (backprop r ch p2)) := by
          show Node.mk s a (v + 1) (tr + r) c
              (match cs[i]? with
               | some ch2 => cs.set i (backprop r ch2 p2)
               | none => cs) = _
          rw [hch]
        constructor
        · intro q n hq
          cases q with
          | nil =>
            have hn : n = Node.mk s a v tr c cs := by
              simpa [nodeAt] using hq.symm
            subst hn
            simp [hbp, statsAt, nodeAt, Node.visit_count, Node.total_reward,
              List.nil_prefix]
          | cons j q2 =>
            by_cases hij : i = j
            · subst hij
              have hqd : nodeAt ch q2 = some n := by
                have : nodeAt (Node.mk s a v tr c cs) (i :: q2) = nodeAt ch q2 := by
                  show (match cs[i]? with
                        | some c2 => nodeAt c2 q2
                        | none => none) = nodeAt ch q2
                  rw [hch]
                rw [this] at hq
                exact hq
              have hstep : nodeAt (backprop r (Node.mk s a v tr c cs) (i :: p2))
                  (i :: q2) = nodeAt (backprop r ch p2) q2 := by
                rw [hbp]
                show (match (cs.set i (backprop r ch p2))[i]? with
                      | some c2 => nodeAt c2 q2
                      | none => none) = _
                rw [List.getElem?_set_eq_of_lt _ hilt]
              have hpre : (i :: q2 <+: i :: p2) ↔ (q2 <+: p2) := by
                simp [List.cons_prefix_cons]
              rw [statsAt, hstep]
              rw [← statsAt, ihstats q2 n hqd]
              by_cases hq2 : q2 <+: p2
              · simp [hq2, hpre.mpr hq2]
              · simp [hq2, fun h => hq2 (hpre.mp h)]
            · have hqd : nodeAt (backprop r (Node.mk s a v tr c cs) (i :: p2))
                  (j :: q2) = nodeAt (Node.mk s a v tr c cs) (j :: q2) := by
                rw [hbp]
                show (match (cs.set i (backprop r ch p2))[j]? with
                      | some c2 => nodeAt c2 q2
                      | none => none) =
                    (match cs[j]? with
                      | some c2 => nodeAt c2 q2
                      | none => none)
                rw [List.getElem?_set_ne hij]
              have hpre : ¬(j :: q2 <+: i :: p2) := by
                simp [List.cons_prefix_cons]
                intro h
                exact absurd h.symm hij
              simp [statsAt, hqd, hq, hpre]
        · intro q
          cases q with
          | nil => simp [hbp, nodeAt]
          | cons j q2 =>
            by_cases hij : i = j
            · subst hij
              have h1 : nodeAt (backprop r (Node.mk s a v tr c cs) (i :: p2))
                  (i :: q2) = nodeAt (backprop r ch p2) q2 := by
                rw [hbp]
                show (match (cs.set i (backprop r ch p2))[i]? with
                      | some c2 => nodeAt c2 q2
                      | none => none) = _
                rw [List.getElem?_set_eq_of_lt _ hilt]
              have h2 : nodeAt (Node.mk s a v tr c cs) (i :: q2) = nodeAt ch q2 := by
                show (match cs[i]? with
                      | some c2 => nodeAt c2 q2
                      | none => none) = _
                rw [hch]
              rw [h1, h2, ihshape]
            · have h1 : nodeAt (backprop r (Node.mk s a v tr c cs) (i :: p2))
                  (j :: q2) = nodeAt (Node.mk s a v tr c cs) (j :: q2) := by
                rw [hbp]
                show (match (cs.set i (backprop r ch p2))[j]? with
                      | some c2 => nodeAt c2 q2
                      | none => none) =
                    (match cs[j]? with
                      | some c2 => nodeAt c2 q2
                      | none => none)
                rw [List.getElem?_set_ne hij]
              rw [h1]

/-- C4: one backpropagation call from the node at a valid path `p` (depth
`p.length`) touches exactly the `p.length + 1` nodes on the chain from that
node up to and including the root — the nodes at the prefixes of `p`, all
of which exist — incrementing each visit count by one and adding the same
undiscounted reward to each total, while the statistics of every other
node and the shape of the tree are unchanged. -/
theorem backpropagate_spec (t : Node σ α) (p : List ℕ) (r : ℝ)
    (hp : (nodeAt t p).isSome = true) :
    (∀ q : List ℕ, q <+: p → (nodeAt t q).isSome = true)
    ∧ (∀ (q : List ℕ) (n : Node σ α), nodeAt t q = some n →
        statsAt (backprop r t p) q =
          some (if q <+: p then (n.visit_count + 1, n.total_reward + r)
                else (n.visit_count, n.total_reward)))
    ∧ ∀ q : List ℕ, (nodeAt (backprop r t p) q).isSome = (nodeAt t q).isSome := by
  rcases backprop_statsAt r p t hp with ⟨hstats, hshape⟩
  exact ⟨fun q hq => nodeAt_ancestor_isSome hq hp, hstats, hshape⟩

/-- A two-level tree used to instantiate theorems at a concrete input. -/
def wChild : Node Unit Unit := Node.mk () (some ()) 4 2 MCTSConfig.defaults []

/-- A concrete root with one child, for instantiating theorems. -/
def wRoot : Node Unit Unit := Node.mk () none 7 3 MCTSConfig.defaults [wChild]

/-- Witness for C4: backpropagation at the path `[0]` of a concrete
two-node tree, its hypothesis discharged by evaluation. -/
theorem backpropagate_spec_witness :
    ((nodeAt wRoot [0]).isSome = true)
    ∧ ((∀ q : List ℕ, q <+: [0] → (nodeAt wRoot q).isSome = true)
      ∧ (∀ (q : List ℕ) (n : Node Unit Unit), nodeAt wRoot q = some n →
          statsAt (backprop 2 wRoot [0]) q =
            some (if q <+: [0] then (n.visit_count + 1, n.total_reward + 2)
                  else (n.visit_count, n.total_reward)))
      ∧ ∀ q : List ℕ, (nodeAt (backprop 2 wRoot [0]) q).isSome =
          (nodeAt wRoot q).isSome) :=
  ⟨rfl, backpropagate_spec wRoot [0] 2 rfl⟩

/-! ## C5: simulation -/

/-- One legal random transition of the rollout: the source state is not
terminal, the action is drawn from its legal actions, and the transition
reward is discarded (only the next state is kept). -/
def RolloutStep (g : Game σ α) (s s2 : σ) : Prop :=
  g.is_terminated s = false ∧
    ∃ a ∈ g.get_all_possible_actions s, s2 = (g.get_next_state s a).1

/-- Reachability in exactly `n` rollout transitions. -/
inductive RolloutReach (g : Game σ α) : ℕ → σ → σ → Prop where
  | refl (s : σ) : RolloutReach g 0 s s
  | step {s s2 s3 : σ} {n : ℕ} :
      RolloutStep g s s2 → RolloutReach g n s2 s3 → RolloutReach g (n + 1) s s3

/-- Unfolding equation: a terminal state stops the rollout at once. -/
theorem rolloutState_succ_term (g : Game σ α) (ρ : ℕ → ℕ) (fuel k : ℕ) (s : σ)
    (hterm : g.is_terminated s = true) :
    rolloutState g ρ (fuel + 1) k s = s := by
  simp [rolloutState, hterm]

/-- Unfolding equation: a state with no legal actions stops the rollout. -/
theorem rolloutState_succ_nil (g : Game σ α) (ρ : ℕ → ℕ) (fuel k : ℕ) (s : σ)
    (hterm : g.is_terminated s = false)
    (ha : g.get_all_possible_actions s = []) :
    rolloutState g ρ (fuel + 1) k s = s := by
  simp [rolloutState, hterm, ha]

/-- Unfolding equation: otherwise the rollout draws the action at index
`ρ k` modulo the action count and continues from the transition result. -/
theorem rolloutState_succ_cons (g : Game σ α) (ρ : ℕ → ℕ) (fuel k : ℕ) (s : σ)
    (a : α) (rest : List α) (hterm : g.is_terminated s = false)
    (ha : g.get_all_possible_actions s = a :: rest) :
    rolloutState g ρ (fuel + 1) k s =
      rolloutState g ρ fuel (k + 1)
        (g.get_next_state s
          ((a :: rest).get
            ⟨ρ k % (a :: rest).length, Nat.mod_lt _ (Nat.succ_pos _)⟩)).1 := by
  simp [rolloutState, hterm, ha]

/-- The rollout takes at most `fuel` legal random transitions and stops
early exactly at a terminal or actionless state: if it stopped with fuel to
spare, the final state is terminal or has no legal actions. -/
theorem rolloutState_reach (g : Game σ α) (ρ : ℕ → ℕ) :
    ∀ (fuel k : ℕ) (s : σ), ∃ n ≤ fuel,
      RolloutReach g n s (rolloutState g ρ fuel k s) ∧
      (n < fuel → g.is_terminated (rolloutState g ρ fuel k s) = true ∨
        g.get_all_possible_actions (rolloutState g ρ fuel k s) = []) := by
  intro fuel
  induction fuel with
  | zero =>
    intro k s
    exact ⟨0, le_rfl, RolloutReach.refl s, fun h => absurd h (by omega)⟩
  | succ fuel ih =>
    intro k s
    cases hterm : g.is_terminated s with
    | true =>
      rw [rolloutState_succ_term g ρ fuel k s hterm]
      exact ⟨0, by omega, RolloutReach.refl s, fun _ => Or.inl hterm⟩
    | false =>
      rcases ha : g.get_all_possible_actions s with _ | ⟨a, rest⟩
      · rw [rolloutState_succ_nil g ρ fuel k s hterm ha]
        exact ⟨0, by omega, RolloutReach.refl s, fun _ => Or.inr ha⟩
      · rw [rolloutState_succ_cons g ρ fuel k s a rest hterm ha]
        set chosen := (a :: rest).get
          ⟨ρ k % (a :: rest).length, Nat.mod_lt _ (Nat.succ_pos _)⟩ with hchosen
        rcases ih (k + 1) (g.get_next_state s chosen).1 with ⟨n, hn, hreach, hstop⟩
        refine ⟨n + 1, by omega, ?_, fun h => hstop (by omega)⟩
        refine RolloutReach.step ⟨hterm, chosen, ?_, rfl⟩ hreach
        rw [ha]
        exact List.get_mem _ _ _

/-- When every reachable state offers at most one legal action, the rollout
is independent of the random source (and of the draw position). -/
theorem rolloutState_single_action (g : Game σ α) :
    ∀ (fuel : ℕ) (s : σ),
      (∀ (n : ℕ) (s2 : σ), RolloutReach g n s s2 →
        (g.get_all_possible_actions s2).length ≤ 1) →
      ∀ (ρ ρ2 : ℕ → ℕ) (k k2 : ℕ),
        rolloutState g ρ fuel k s = rolloutState g ρ2 fuel k2 s := by
  intro fuel
  induction fuel with
  | zero => intro s _ ρ ρ2 k k2; rfl
  | succ fuel ih =>
    intro s hone ρ ρ2 k k2
    cases hterm : g.is_terminated s with
    | true => rw [rolloutState_succ_term g ρ fuel k s hterm,
        rolloutState_succ_term g ρ2 fuel k2 s hterm]
    | false =>
      rcases ha : g.get_all_possible_actions s with _ | ⟨a, rest⟩
      · rw [rolloutState_succ_nil g ρ fuel k s hterm ha,
          rolloutState_succ_nil g ρ2 fuel k2 s hterm ha]
      · have hlen : (a :: rest).length ≤ 1 := by
          have := hone 0 s (RolloutReach.refl s)
          rw [ha] at this
          exact this
        have hrest : rest = [] := by
          rcases rest with _ | _
          · rfl
          · simp at hlen
        subst hrest
        rw [rolloutState_succ_cons g ρ fuel k s a [] hterm ha,
          rolloutState_succ_cons g ρ2 fuel k2 s a [] hterm ha]
        have hget : ∀ m : ℕ, ([a] : List α).get
            ⟨m % ([a] : List α).length, Nat.mod_lt _ (Nat.succ_pos _)⟩ = a := by
          intro m
          have h0 : m % ([a] : List α).length = 0 := by simp [Nat.mod_one]
          simp [h0]
        rw [hget (ρ k), hget (ρ2 k2)]
        have hmem : a ∈ g.get_all_possible_actions s := by
          rw [ha]
          exact List.mem_singleton.mpr rfl
        refine ih (g.get_next_state s a).1 ?_ ρ ρ2 (k + 1) (k2 + 1)
        intro n s3 hr
        exact hone (n + 1) s3 (RolloutReach.step ⟨hterm, a, hmem, rfl⟩ hr)

/-- C5: a rollout performs at most `max_simulation_depth` random legal
transitions (each drawn from the legal actions of a non-terminal state,
each transition reward discarded), stops early exactly when the current
state is terminal or has no legal actions, and returns `evaluate()` of the
state reached — possibly a non-terminal one when the depth cap is what
stopped it; and when no reachable state offers more than one legal action,
the playout value does not depend on the random source. -/
theorem simulate_random_playout_spec (g : Game σ α) (cfg : MCTSConfig)
    (ρ : ℕ → ℕ) (t : Node σ α) :
    (simulateRandomPlayout g cfg ρ t =
      g.evaluate (rolloutState g ρ (max_simulation_depth cfg) 0 t.state))
    ∧ (∃ n ≤ max_simulation_depth cfg,
        RolloutReach g n t.state
          (rolloutState g ρ (max_simulation_depth cfg) 0 t.state) ∧
        (n < max_simulation_depth cfg →
          g.is_terminated
              (rolloutState g ρ (max_simulation_depth cfg) 0 t.state) = true ∨
          g.get_all_possible_actions
              (rolloutState g ρ (max_simulation_depth cfg) 0 t.state) = []))
    ∧ ((∀ (n : ℕ) (s2 : σ), RolloutReach g n t.state s2 →
          (g.get_all_possible_actions s2).length ≤ 1) →
        ∀ ρ2 : ℕ → ℕ,
          simulateRandomPlayout g cfg ρ t = simulateRandomPlayout g cfg ρ2 t) := by
  refine ⟨rfl, rolloutState_reach g ρ (max_simulation_depth cfg) 0 t.state, ?_⟩
  intro hone ρ2
  unfold simulateRandomPlayout
  rw [rolloutState_single_action g (max_simulation_depth cfg) t.state hone ρ ρ2 0 0]

/-! ## C6: the returned action -/

/-- The post-loop pick of `MCTS.search`: over an empty children list it is
`None`; otherwise it is the `action_taken` of the first child attaining the
maximal `visit_count` (the scan starts from `highest_visits = -1`, so the
first child always becomes the running best). -/
theorem bestChildAction_spec (cs : List (Node σ α)) :
    (cs = [] → bestChildAction cs = none)
    ∧ (cs ≠ [] → ∃ (i : ℕ) (c : Node σ α), cs[i]? = some c ∧
        bestChildAction cs = c.action_taken ∧
        (∀ (j : ℕ) (d : Node σ α), cs[j]? = some d →
          d.visit_count ≤ c.visit_count) ∧
        ∀ (j : ℕ) (d : Node σ α), j < i → cs[j]? = some d →
          d.visit_count < c.visit_count) := by
  constructor
  · intro h
    subst h
    rfl
  · intro hne
    rcases scanBestIdx_spec (cs.map fun c => (c.visit_count : ℤ)) 0 none (-1) with
      ⟨_, hall⟩ | ⟨i, v, hv, heq, _, hall, hfst⟩
    · exfalso
      rcases cs with _ | ⟨c, cs⟩
      · exact hne rfl
      · have hb : ((c.visit_count : ℤ)) ≤ -1 := hall 0 _ (by simp)
        omega
    · rw [List.getElem?_map] at hv
      rcases Option.map_eq_some'.mp hv with ⟨c, hc, hcv⟩
      refine ⟨i, c, hc, ?_, ?_, ?_⟩
      · unfold bestChildAction
        rw [if_neg (by simpa [List.isEmpty_iff] using hne)]
        rw [show scanBestIdx (cs.map fun c => (c.visit_count : ℤ)) 0 none (-1) =
            some i by simpa using heq]
        show (match cs[i]? with
              | some c2 => c2.action_taken
              | none => none) = c.action_taken
        rw [hc]
      · intro j d hj
        have hd := hall j ((d.visit_count : ℤ))
          (by rw [List.getElem?_map, hj]; rfl)
        rw [← hcv] at hd
        exact_mod_cast hd
      · intro j d hji hj
        have hd := hfst j ((d.visit_count : ℤ)) hji
          (by rw [List.getElem?_map, hj]; rfl)
        rw [← hcv] at hd
        exact_mod_cast hd

/-- C6: after the simulation loop completes on a non-terminal initial
state, `search` returns `None` when the root has no children, and otherwise
the `action_taken` of the root child with the highest `visit_count`, ties
broken in favour of the earliest-created child. -/
theorem search_most_visited_spec [DecidableEq α] (g : Game σ α)
    (cfg : MCTSConfig) (s : σ) (ρ : ℕ → ℕ → ℕ)
    (hterm : g.is_terminated s = false) :
    ∃ final : Node σ α,
      final = searchLoop g cfg ρ cfg.num_simulations (Node.fresh s none cfg) ∧
      (final.children = [] → search g cfg s ρ = none) ∧
      (final.children ≠ [] → ∃ (i : ℕ) (c : Node σ α),
        final.children[i]? = some c ∧
        search g cfg s ρ = c.action_taken ∧
        (∀ (j : ℕ) (d : Node σ α), final.children[j]? = some d →
          d.visit_count ≤ c.visit_count) ∧
        ∀ (j : ℕ) (d : Node σ α), j < i → final.children[j]? = some d →
          d.visit_count < c.visit_count) := by
  refine ⟨_, rfl, ?_, ?_⟩
  · intro hnil
    unfold search
    rw [if_neg (by simp [Node.is_terminatedN, Node.fresh, Node.state, hterm])]
    exact hnil ▸ (bestChildAction_spec
      (searchLoop g cfg ρ cfg.num_simulations (Node.fresh s none cfg)).children).1 hnil
  · intro hne
    rcases (bestChildAction_spec
        (searchLoop g cfg ρ cfg.num_simulations
          (Node.fresh s none cfg)).children).2 hne with ⟨i, c, hc, hact, hall, hfst⟩
    refine ⟨i, c, hc, ?_, hall, hfst⟩
    unfold search
    rw [if_neg (by simp [Node.is_terminatedN, Node.fresh, Node.state, hterm])]
    exact hact

/-- A trivial domain with no legal actions and no terminal states, used to
instantiate theorems at concrete inputs. -/
def gW : Game Unit Unit :=
  ⟨fun _ => [], fun _ => false, fun s _ => (s, 0), fun _ => 0⟩

/-- Witness for C6 at the trivial domain, the hypothesis discharged by
evaluation. -/
theorem search_most_visited_witness :
    gW.is_terminated () = false ∧
    ∃ final : Node Unit Unit,
      final = searchLoop gW MCTSConfig.defaults (fun _ _ => 0)
          MCTSConfig.defaults.num_simulations
          (Node.fresh () none MCTSConfig.defaults) ∧
      (final.children = [] →
        search gW MCTSConfig.defaults () (fun _ _ => 0) = none) ∧
      (final.children ≠ [] → ∃ (i : ℕ) (c : Node Unit Unit),
        final.children[i]? = some c ∧
        search gW MCTSConfig.defaults () (fun _ _ => 0) = c.action_taken ∧
        (∀ (j : ℕ) (d : Node Unit Unit), final.children[j]? = some d →
          d.visit_count ≤ c.visit_count) ∧
        ∀ (j : ℕ) (d : Node Unit Unit), j < i → final.children[j]? = some d →
          d.visit_count < c.visit_count) :=
  ⟨rfl, search_most_visited_spec gW MCTSConfig.defaults () (fun _ _ => 0) rfl⟩

/-! ## C7: terminal initial state -/

/-- C7: on an already-terminal initial state (the four operations being
present), `search` reports no action, and the tree it held at return is
the fresh root alone — zero visits, zero reward, no children: no expansion
and no simulation ever ran, and being side-effect free the engine leaves
the caller state untouched. -/
theorem search_terminal_initial [DecidableEq α] (g : Game σ α)
    (cfg : MCTSConfig) (s : σ) (ρ : ℕ → ℕ → ℕ)
    (hterm : g.is_terminated s = true) :
    search g cfg s ρ = none ∧
    searchTree g cfg s ρ = Node.mk s none 0 0 cfg [] := by
  constructor
  · unfold search
    rw [if_pos (by simp [Node.is_terminatedN, Node.fresh, Node.state, hterm])]
  · unfold searchTree
    rw [if_pos (by simp [Node.is_terminatedN, Node.fresh, Node.state, hterm])]
    rfl

/-- A trivial domain whose every state is terminal, used to instantiate
theorems at concrete inputs. -/
def gTerm : Game Unit Unit :=
  ⟨fun _ => [], fun _ => true, fun s _ => (s, 0), fun _ => 0⟩

/-- Witness for C7 at the trivial all-terminal domain. -/
theorem search_terminal_initial_witness :
    gTerm.is_terminated () = true ∧
    (search gTerm MCTSConfig.defaults () (fun _ _ => 0) = none ∧
      searchTree gTerm MCTSConfig.defaults () (fun _ _ => 0) =
        Node.mk () none 0 0 MCTSConfig.defaults []) :=
  ⟨rfl, search_terminal_initial gTerm MCTSConfig.defaults () (fun _ _ => 0) rfl⟩

/-! ## C10: the root visit count -/

/-- Expansion keeps the visit count of the node it expands. -/
theorem expandNode_visit_count [DecidableEq α] (g : Game σ α) (t : Node σ α) :
    ((expandNode g t).1).visit_count = t.visit_count := by
  unfold expandNode
  split
  · rfl
  · rcases hfu : firstUntried (g.get_all_possible_actions t.state)
        (t.children.map Node.action_taken) with _ | a
    · simp only [hfu]
    · simp only [hfu]
      cases t
      rfl

/-- Expansion anywhere in the tree keeps the root visit count. -/
theorem expandAt_visit_count [DecidableEq α] (g : Game σ α) :
    ∀ (p : List ℕ) (t : Node σ α),
      ((expandAt g t p).1).visit_count = t.visit_count := by
  intro p
  induction p with
  | nil => intro t; exact expandNode_visit_count g t
  | cons i p2 _ =>
    intro t
    unfold expandAt
    rcases hch : t.children[i]? with _ | ch
    · simp only [hch]
    · simp only [hch]
      cases t
      rfl

/-- Backpropagation bumps the root visit count by exactly one, wherever the
path leads. -/
theorem backprop_visit_count (r : ℝ) (t : Node σ α) (p : List ℕ) :
    (backprop r t p).visit_count = t.visit_count + 1 := by
  cases t
  cases p
  · rfl
  · rfl

/-- Each search iteration adds exactly one to the root visit count: one
backpropagation runs per iteration and its walk always reaches the root. -/
theorem mctsIteration_visit_count [DecidableEq α] (g : Game σ α)
    (cfg : MCTSConfig) (ρ1 : ℕ → ℕ) (t : Node σ α) :
    (mctsIteration g cfg ρ1 t).visit_count = t.visit_count + 1 := by
  unfold mctsIteration
  rcases selectPath_result_aux g (sizeOf t) t le_rfl with ⟨pn, hpn, _⟩
  by_cases hpt : pn.is_terminatedN g = true
  · simp [hpn, hpt, backprop_visit_count]
  · simp [hpn, hpt, backprop_visit_count, expandAt_visit_count]

/-- Unrolling one iteration off the search loop. -/
theorem searchLoop_succ [DecidableEq α] (g : Game σ α) (cfg : MCTSConfig)
    (ρ : ℕ → ℕ → ℕ) (n : ℕ) (t : Node σ α) :
    searchLoop g cfg ρ (n + 1) t =
      mctsIteration g cfg (ρ n) (searchLoop g cfg ρ n t) := by
  unfold searchLoop
  rw [List.range_succ, List.foldl_append]
  rfl

/-- The loop adds its iteration count to the root visit count. -/
theorem searchLoop_visit_count [DecidableEq α] (g : Game σ α)
    (cfg : MCTSConfig) (ρ : ℕ → ℕ → ℕ) :
    ∀ (n : ℕ) (t : Node σ α),
      (searchLoop g cfg ρ n t).visit_count = t.visit_count + n := by
  intro n
  induction n with
  | zero => intro t; rfl
  | succ n ih =>
    intro t
    rw [searchLoop_succ, mctsIteration_visit_count, ih]
    omega

/-- C10: on a non-terminal initial state the root of the tree left by the
completed simulation loop has been visited exactly `num_simulations`
times — every iteration backpropagates once and that walk ends at the
root. -/
theorem root_visit_count_spec [DecidableEq α] (g : Game σ α)
    (cfg : MCTSConfig) (s : σ) (ρ : ℕ → ℕ → ℕ)
    (hterm : g.is_terminated s = false) :
    (searchTree g cfg s ρ).visit_count = cfg.num_simulations := by
  unfold searchTree
  rw [if_neg (by simp [Node.is_terminatedN, Node.fresh, Node.state, hterm])]
  rw [searchLoop_visit_count]
  simp [Node.fresh, Node.visit_count]

/-- Witness for C10 at the trivial never-terminal domain. -/
theorem root_visit_count_witness :
    gW.is_terminated () = false ∧
    (searchTree gW MCTSConfig.defaults () (fun _ _ => 0)).visit_count =
      MCTSConfig.defaults.num_simulations :=
  ⟨rfl, root_visit_count_spec gW MCTSConfig.defaults () (fun _ _ => 0) rfl⟩

/-! ## C9: the contract gate -/

/-- C9: when any of the four required operations is absent, the search
aborts with the contract-violation error naming the first absent operation
in check order — uniformly in the config, the state and the random source,
so before any tree is built or simulation runs; when all four are present
no such error is raised and the total search result comes back. -/
theorem search_contract_gate [DecidableEq α] (d : DuckState σ α)
    (cfg : MCTSConfig) (s : σ) (ρ : ℕ → ℕ → ℕ) :
    ((d.get_all_possible_actions = none ∨ d.is_terminated = none ∨
        d.get_next_state = none ∨ d.evaluate = none) →
      ∃ m : MissingMethod, searchChecked d cfg s ρ = .error m ∧
        ∀ (cfg2 : MCTSConfig) (s2 : σ) (ρ2 : ℕ → ℕ → ℕ),
          searchChecked d cfg2 s2 ρ2 = .error m)
    ∧ ∀ (ga : σ → List α) (it : σ → Bool) (nx : σ → α → σ × ℝ) (ev : σ → ℝ),
        d = ⟨some ga, some it, some nx, some ev⟩ →
        searchChecked d cfg s ρ = .ok (search ⟨ga, it, nx, ev⟩ cfg s ρ) := by
  rcases d with ⟨oga, oit, onx, oev⟩
  constructor
  · intro hmiss
    rcases oga with _ | ga
    · exact ⟨.get_all_possible_actions, rfl, fun _ _ _ => rfl⟩
    · rcases oit with _ | it
      · exact ⟨.is_terminated, rfl, fun _ _ _ => rfl⟩
      · rcases onx with _ | nx
        · exact ⟨.get_next_state, rfl, fun _ _ _ => rfl⟩
        · rcases oev with _ | ev
          · exact ⟨.evaluate, rfl, fun _ _ _ => rfl⟩
          · exfalso
            rcases hmiss with h | h | h | h <;> exact Option.noConfusion h
  · intro ga it nx ev heq
    injection heq with h1 h2 h3 h4
    subst h1
    subst h2
    subst h3
    subst h4
    rfl

/-- A duck-typed view of the trivial domain with its transition absent. -/
def dMissing : DuckState Unit Unit :=
  ⟨some fun _ => [], some fun _ => false, none, some fun _ => 0⟩

/-- Witness for C9: a state lacking `get_next_state` aborts with the error
naming it, and the fully-equipped trivial domain passes the gate. -/
theorem search_contract_gate_witness :
    ((dMissing.get_all_possible_actions = none ∨ dMissing.is_terminated = none ∨
        dMissing.get_next_state = none ∨ dMissing.evaluate = none) →
      ∃ m : MissingMethod,
        searchChecked dMissing MCTSConfig.defaults () (fun _ _ => 0) = .error m ∧
        ∀ (cfg2 : MCTSConfig) (s2 : Unit) (ρ2 : ℕ → ℕ → ℕ),
          searchChecked dMissing cfg2 s2 ρ2 = .error m)
    ∧ ∀ (ga : Unit → List Unit) (it : Unit → Bool)
        (nx : Unit → Unit → Unit × ℝ) (ev : Unit → ℝ),
        dMissing = ⟨some ga, some it, some nx, some ev⟩ →
        searchChecked dMissing MCTSConfig.defaults () (fun _ _ => 0) =
          .ok (search ⟨ga, it, nx, ev⟩ MCTSConfig.defaults () (fun _ _ => 0)) :=
  search_contract_gate dMissing MCTSConfig.defaults () (fun _ _ => 0)

/-! ## C8: the configuration -/

/-- Every node of the tree holds the config `c`: the source node
constructor stores the config passed in, and a child created without one
inherits the config of its parent. -/
inductive AllConfig (c : MCTSConfig) : Node σ α → Prop where
  | intro (s : σ) (a : Option α) (v : ℕ) (tr : ℝ) (cs : List (Node σ α)) :
      (∀ ch ∈ cs, AllConfig c ch) → AllConfig c (Node.mk s a v tr c cs)

/-- The config field of a node covered by `AllConfig`. -/
theorem AllConfig.config_eq {c : MCTSConfig} {t : Node σ α}
    (h : AllConfig c t) : t.config = c := by
  cases h
  rfl

/-- The children of a node covered by `AllConfig` are covered. -/
theorem AllConfig.children_mem {c : MCTSConfig} {t : Node σ α}
    (h : AllConfig c t) : ∀ ch ∈ t.children, AllConfig c ch := by
  cases h
  assumption

/-- Expansion hands the parent config to the created child. -/
theorem AllConfig.expandNode [DecidableEq α] {c : MCTSConfig} (g : Game σ α)
    {t : Node σ α} (h : AllConfig c t) : AllConfig c (Mcts.expandNode g t).1 := by
  unfold Mcts.expandNode
  split
  · exact h
  · rcases hfu : firstUntried (g.get_all_possible_actions t.state)
        (t.children.map Node.action_taken) with _ | a
    · simpa only [hfu] using h
    · simp only [hfu]
      cases h with
      | intro s a0 v tr cs hcs =>
        refine AllConfig.intro s a0 v tr _ ?_
        intro ch hch
        rcases List.mem_append.mp hch with hch | hch
        · exact hcs ch hch
        · rw [List.mem_singleton.mp hch]
          have hcfg : (Node.mk s a0 v tr c cs).config = c := rfl
          rw [show (Node.mk s a0 v tr c cs).config = c from rfl]
          exact AllConfig.intro _ _ _ _ [] (by intro ch2 hch2; simp at hch2)

/-- Expansion anywhere in the tree preserves the shared config. -/
theorem AllConfig.expandAt [DecidableEq α] {c : MCTSConfig} (g : Game σ α) :
    ∀ (p : List ℕ) {t : Node σ α}, AllConfig c t →
      AllConfig c (Mcts.expandAt g t p).1 := by
  intro p
  induction p with
  | nil => intro t h; exact h.expandNode g
  | cons i p2 ih =>
    intro t h
    unfold Mcts.expandAt
    rcases hch : t.children[i]? with _ | ch
    · simpa only [hch] using h
    · simp only [hch]
      cases h with
      | intro s a v tr cs hcs =>
        refine AllConfig.intro s a v tr _ ?_
        intro ch2 hch2
        rcases List.mem_or_eq_of_mem_set hch2 with hch2 | hch2
        · exact hcs ch2 hch2
        · subst hch2
          have hmem : ch ∈ cs := by
            have := List.getElem?_eq_some.mp hch
            rcases this with ⟨hlt, hget⟩
            exact hget ▸ List.getElem_mem hlt
          exact ih (hcs ch hmem)

/-- Backpropagation preserves the shared config. -/
theorem AllConfig.backprop {c : MCTSConfig} (r : ℝ) :
    ∀ (p : List ℕ) {t : Node σ α}, AllConfig c t →
      AllConfig c (Mcts.backprop r t p) := by
  intro p
  induction p with
  | nil =>
    intro t h
    cases h with
    | intro s a v tr cs hcs => exact AllConfig.intro s a (v + 1) (tr + r) cs hcs
  | cons i p2 ih =>
    intro t h
    cases h with
    | intro s a v tr cs hcs =>
      show AllConfig c (Node.mk s a (v + 1) (tr + r) c
        (match cs[i]? with
         | some ch => cs.set i (Mcts.backprop r ch p2)
         | none => cs))
      rcases hch : cs[i]? with _ | ch
      · exact AllConfig.intro s a (v + 1) (tr + r) cs hcs
      · refine AllConfig.intro s a (v + 1) (tr + r) _ ?_
        intro ch2 hch2
        rcases List.mem_or_eq_of_mem_set hch2 with hch2 | hch2
        · exact hcs ch2 hch2
        · subst hch2
          have hmem : ch ∈ cs := by
            rcases List.getElem?_eq_some.mp hch with ⟨hlt, hget⟩
            exact hget ▸ List.getElem_mem hlt
          exact ih (hcs ch hmem)

/-- One search iteration preserves the shared config. -/
theorem AllConfig.mctsIteration [DecidableEq α] {c : MCTSConfig} (g : Game σ α)
    (cfg : MCTSConfig) (ρ1 : ℕ → ℕ) {t : Node σ α} (h : AllConfig c t) :
    AllConfig c (Mcts.mctsIteration g cfg ρ1 t) := by
  unfold Mcts.mctsIteration
  rcases hpn : nodeAt t (selectPath g t) with _ | pn
  · simpa only [hpn] using h
  · simp only [hpn]
    by_cases hpt : pn.is_terminatedN g = true
    · simp only [hpt, if_true]
      exact h.backprop _ _
    · simp only [hpt, Bool.false_eq_true, if_false]
      exact (AllConfig.expandAt g _ h).backprop _ _

/-- The whole search loop preserves the shared config. -/
theorem AllConfig.searchLoop [DecidableEq α] {c : MCTSConfig} (g : Game σ α)
    (cfg : MCTSConfig) (ρ : ℕ → ℕ → ℕ) :
    ∀ (n : ℕ) {t : Node σ α}, AllConfig c t →
      AllConfig c (Mcts.searchLoop g cfg ρ n t) := by
  intro n
  induction n with
  | zero => intro t h; exact h
  | succ n ih =>
    intro t h
    rw [searchLoop_succ]
    exact AllConfig.mctsIteration g cfg (ρ n) (ih h)

/-- C8 as frozen is false on the code: the spec field set
(`exploration_constant`, `num_simulations`, `max_simulation_depth`) does
not determine a config — two configs agreeing on `exploration_constant`
and `num_simulations` (and necessarily on the `getattr` depth fallback,
`max_simulation_depth` not being a field) still differ in `uct_C` and give
different UCT scores. -/
theorem config_fields_counterexample :
    (MCTSConfig.mk 1.414 1000 0).exploration_constant =
      (MCTSConfig.mk 1.414 1000 1).exploration_constant
    ∧ (MCTSConfig.mk 1.414 1000 0).num_simulations =
      (MCTSConfig.mk 1.414 1000 1).num_simulations
    ∧ max_simulation_depth (MCTSConfig.mk 1.414 1000 0) =
      max_simulation_depth (MCTSConfig.mk 1.414 1000 1)
    ∧ MCTSConfig.mk 1.414 1000 0 ≠ MCTSConfig.mk 1.414 1000 1
    ∧ Node.uct_value (Node.mk () none 1 0 (MCTSConfig.mk 1.414 1000 0)
          ([] : List (Node Unit Unit))) 2 ≠
      Node.uct_value (Node.mk () none 1 0 (MCTSConfig.mk 1.414 1000 1)
          ([] : List (Node Unit Unit))) 2 := by
  refine ⟨rfl, rfl, rfl, ?_, ?_⟩
  · intro h
    have := congrArg MCTSConfig.uct_C h
    norm_num at this
  · rw [uct_value_closed, uct_value_closed]
    norm_num
    have h : (0 : ℝ) < Real.sqrt (Real.log 2) :=
      Real.sqrt_pos.mpr (Real.log_pos (by norm_num))
    intro hcon
    rw [← EReal.coe_zero, EReal.coe_eq_coe_iff] at hcon
    exact absurd hcon.symm (ne_of_gt h)

/-- C8 (amended): the config of the source consists of
`exploration_constant` (default 1.414), `num_simulations` (default 1000)
and `uct_C` (default 1.414, the constant the UCT formula reads);
`max_simulation_depth` is not a config field — rollouts always use the
`getattr` fallback 100 — and one search invocation shares the engine
config with every node of its tree. -/
theorem config_spec_amended [DecidableEq α] (g : Game σ α)
    (cfg : MCTSConfig) (s : σ) (ρ : ℕ → ℕ → ℕ) :
    (MCTSConfig.defaults.exploration_constant = 1.414 ∧
      MCTSConfig.defaults.num_simulations = 1000 ∧
      MCTSConfig.defaults.uct_C = 1.414)
    ∧ (∀ c1 c2 : MCTSConfig,
        c1.exploration_constant = c2.exploration_constant →
        c1.num_simulations = c2.num_simulations →
        c1.uct_C = c2.uct_C → c1 = c2)
    ∧ (∀ c : MCTSConfig, max_simulation_depth c = 100)
    ∧ AllConfig cfg (searchTree g cfg s ρ) := by
  refine ⟨⟨rfl, rfl, rfl⟩, ?_, fun _ => rfl, ?_⟩
  · intro c1 c2 h1 h2 h3
    cases c1
    cases c2
    simp only at h1 h2 h3
    rw [h1, h2, h3]
  · have hroot : AllConfig cfg (Node.fresh s none cfg : Node σ α) :=
      AllConfig.intro s none 0 0 [] (by intro ch hch; simp at hch)
    unfold searchTree
    show AllConfig cfg
      (if Node.is_terminatedN g (Node.fresh s none cfg) = true
       then Node.fresh s none cfg
       else Mcts.searchLoop g cfg ρ cfg.num_simulations (Node.fresh s none cfg))
    split
    · exact hroot
    · exact AllConfig.searchLoop g cfg ρ cfg.num_simulations hroot

end Mcts
